import Mathlib

/-!
Verification of the duplicate-content-checker pipeline (src/app.py).

The file shallowly embeds the parts of `app.py` that the specification's
claims are about:

* `clean_text` (app.py lines 14-19): readability extraction + BeautifulSoup
  `get_text(separator=' ', strip=True)` + `re.sub(r'\s+', ' ', text.lower())`.
  The third-party HTML layer (lxml/readability/BeautifulSoup) is modelled at
  the level the claims need: tag stripping, the core character entities
  (`&lt;` `&gt;` `&amp;`), per-text-node stripping, and lxml's
  "Document is empty" failure on whitespace-only input.  readability's
  main-content heuristic is modelled as passing the document's text content
  through, which is its behavior on the plain documents used here.
* `fetch_content` (lines 21-29): the try/except wrapper that turns any
  failure into an `"Error: ..."` placeholder string.
* `compare_texts` (lines 31-35): sklearn `TfidfVectorizer(stop_words='english')`
  followed by `cosine_similarity`, modelled with sklearn's documented
  defaults: token pattern `\b\w\w+\b`, the frozen English stop-word list,
  smooth idf `ln((1+n)/(1+df)) + 1`, raw term counts, cosine of the
  resulting vectors (with sklearn's zero-vector-maps-to-zero convention),
  and the `ValueError: empty vocabulary` raise when no term survives.
  Real-number arithmetic models the float computation.
* `difflib.SequenceMatcher(None, a, b).get_matching_blocks()` (lines 116-117):
  the full difflib algorithm - `b2j` with autojunk, the longest-match
  dynamic program with difflib's tie-breaking, the non-junk extension
  loops (`isjunk = None`, so the junk set is empty and the junk extension
  loops are no-ops), the divide-and-conquer block collection, the
  adjacent-block merge, and the `(len(a), len(b), 0)` terminator.
  The recursion is written with an explicit fuel argument
  (`len(a) + len(b) + 1`), which dominates the recursion depth; difflib's
  queue-plus-final-sort produces the same sorted list as the in-order
  recursion used here.
* the module-level comparison loop (lines 112-127): pair iteration,
  `round(sim_score, 4)` (round-half-even, modelled exactly over `ℚ`),
  the `block.size > 30` filter, slicing `texts[i][block.a : block.a+block.size]`,
  and the `"\n\n".join(f"...{chunk.strip()}..." ...)` evidence string.
-/

/-! ## Character-level utilities shared by the normalizer model -/

/-- Whitespace test used throughout: models Python's `str.strip` /
regex `\s` on the ASCII whitespace the pipeline produces. -/
def isWs (c : Char) : Bool :=
  c.isWhitespace

/-- Python `str.lower` on one character (ASCII model): `A`-`Z` map to
`a`-`z`, everything else is unchanged. -/
def lowChar (c : Char) : Char :=
  if 'A' ≤ c ∧ c ≤ 'Z' then Char.ofNat (c.toNat + 32) else c

/-- Python `str.lower` over a character list. -/
def lowerStr (cs : List Char) : List Char :=
  cs.map lowChar

/-- One step of `re.sub(r'\s+', ' ', s)`: the flag records whether the
previous character was whitespace (so further whitespace is dropped). -/
def collapseGo : Bool → List Char → List Char
  | _, [] => []
  | prevWs, c :: rest =>
    if isWs c then
      if prevWs then collapseGo true rest else ' ' :: collapseGo true rest
    else
      c :: collapseGo false rest

/-- Model of `re.sub(r'\s+', ' ', s)` from `clean_text` (app.py line 19). -/
def collapseWs (cs : List Char) : List Char :=
  collapseGo false cs

/-- Characterization of `collapseWs`-normal output: every whitespace is a
single space not preceded by whitespace (the flag is the preceding-character
state, as in `collapseGo`). -/
def noWsRun : Bool → List Char → Bool
  | _, [] => true
  | prevWs, c :: r =>
    if isWs c then !prevWs && (c == ' ') && noWsRun true r else noWsRun false r

/-- Python `str.strip`: drop leading and trailing whitespace. -/
def stripChars (cs : List Char) : List Char :=
  ((cs.dropWhile isWs).reverse.dropWhile isWs).reverse

/-- Push a character onto the first text node of a node list
(used by the text-node scanner below). -/
def consHead (c : Char) : List (List Char) → List (List Char)
  | [] => [[c]]
  | n :: ns => (c :: n) :: ns

/-- An HTML `<` only opens a tag when followed by a letter, `/` or `!`
(the behavior of the html parsers behind readability/BeautifulSoup). -/
def isTagStart : List Char → Bool
  | [] => false
  | c :: _ => c.isAlpha || c == '/' || c == '!'

/-- Splits markup into its text nodes: tags separate nodes, the core
character entities decode into text.  The boolean is the scanner mode
(`true` = currently inside a tag).  Models the text-node structure that
`BeautifulSoup(...).get_text` walks over after readability's `summary()`. -/
def scanText : Bool → List Char → List (List Char)
  | true, [] => [[]]
  | true, c :: rest =>
    if c == '>' then [] :: scanText false rest else scanText true rest
  | false, [] => [[]]
  | false, '&' :: 'l' :: 't' :: ';' :: rest => consHead '<' (scanText false rest)
  | false, '&' :: 'g' :: 't' :: ';' :: rest => consHead '>' (scanText false rest)
  | false, '&' :: 'a' :: 'm' :: 'p' :: ';' :: rest => consHead '&' (scanText false rest)
  | false, '<' :: rest =>
    if isTagStart rest then scanText true rest else consHead '<' (scanText false rest)
  | false, c :: rest => consHead c (scanText false rest)

/-- BeautifulSoup `get_text(separator=' ', strip=True)`: strip every text
node, drop the ones that become empty, join the rest with single spaces. -/
def getTextStrip (cs : List Char) : List Char :=
  List.intercalate [' '] (((scanText false cs).map stripChars).filter (fun n => n ≠ []))

/-- Model of `clean_text` (app.py lines 14-19).  lxml (inside readability) raises
`Document is empty` on input with no parsable content, which the model
renders as the error branch; otherwise the readable text is extracted,
lowercased, and whitespace-collapsed. -/
def clean_text (html : String) : Except String String :=
  if html.toList.all isWs then
    Except.error "Document is empty"
  else
    Except.ok (String.mk (collapseWs (lowerStr (getTextStrip html.toList))))

/-- Outcome of `requests.get(url, timeout=10)`: either a response with a
status code and body, or a raised exception with a message. -/
inductive FetchOutcome where
  | response (status : Nat) (body : String)
  | exn (msg : String)

/-- Model of `fetch_content` (app.py lines 21-29).  Note that `clean_text` is called
inside the `try` block, so a normalization failure is also caught and turned
into an `"Error: ..."` placeholder. -/
def fetch_content : FetchOutcome → String
  | FetchOutcome.exn e => "Error: " ++ e
  | FetchOutcome.response status body =>
    if status = 200 then
      match clean_text body with
      | Except.ok t => t
      | Except.error e => "Error: " ++ e
    else
      "Error: " ++ toString status

/-- Line 103 of app.py: `texts = [fetch_content(url) for url in urls]` -
every URL contributes exactly one entry, bad fetches included. -/
def fetchAll (outcomes : List FetchOutcome) : List String :=
  outcomes.map fetch_content

/-! ## Similarity engine: `compare_texts` (app.py lines 31-35) -/

/-- A word character of sklearn's default token pattern `(?u)\b\w\w+\b`
(alphanumeric or underscore; ASCII model of the corpus at hand). -/
def isWordChar (c : Char) : Bool :=
  c.isAlphanum || c == '_'

/-- Maximal runs of word characters (the candidate tokens before the
two-character minimum of `\b\w\w+\b` is applied). -/
def wordRuns : List Char → List (List Char)
  | [] => [[]]
  | c :: rest =>
    if isWordChar c then consHead c (wordRuns rest) else [] :: wordRuns rest

/-- sklearn tokenization with the default pattern `(?u)\b\w\w+\b`:
maximal word-character runs of length at least 2. -/
def sklearnTokenize (s : String) : List String :=
  ((wordRuns s.toList).filter (fun r => 2 ≤ r.length)).map (fun r => String.mk r)

/-- The frozen `ENGLISH_STOP_WORDS` list that
`TfidfVectorizer(stop_words='english')` removes after tokenization. -/
def englishStopWords : List String :=
  ["a", "about", "above", "across", "after", "afterwards", "again", "against",
   "all", "almost", "alone", "along", "already", "also", "although", "always",
   "am", "among", "amongst", "amoungst", "amount", "an", "and", "another",
   "any", "anyhow", "anyone", "anything", "anyway", "anywhere", "are",
   "around", "as", "at", "back", "be", "became", "because", "become",
   "becomes", "becoming", "been", "before", "beforehand", "behind", "being",
   "below", "beside", "besides", "between", "beyond", "bill", "both",
   "bottom", "but", "by", "call", "can", "cannot", "cant", "co", "con",
   "could", "couldnt", "cry", "de", "describe", "detail", "do", "done",
   "down", "due", "during", "each", "eg", "eight", "either", "eleven",
   "else", "elsewhere", "empty", "enough", "etc", "even", "ever", "every",
   "everyone", "everything", "everywhere", "except", "few", "fifteen",
   "fifty", "fill", "find", "fire", "first", "five", "for", "former",
   "formerly", "forty", "found", "four", "from", "front", "full", "further",
   "get", "give", "go", "had", "has", "hasnt", "have", "he", "hence", "her",
   "here", "hereafter", "hereby", "herein", "hereupon", "hers", "herself",
   "him", "himself", "his", "how", "however", "hundred", "i", "ie", "if",
   "in", "inc", "indeed", "interest", "into", "is", "it", "its", "itself",
   "keep", "last", "latter", "latterly", "least", "less", "ltd", "made",
   "many", "may", "me", "meanwhile", "might", "mill", "mine", "more",
   "moreover", "most", "mostly", "move", "much", "must", "my", "myself",
   "name", "namely", "neither", "never", "nevertheless", "next", "nine",
   "no", "nobody", "none", "noone", "nor", "not", "nothing", "now",
   "nowhere", "of", "off", "often", "on", "once", "one", "only", "onto",
   "or", "other", "others", "otherwise", "our", "ours", "ourselves", "out",
   "over", "own", "part", "per", "perhaps", "please", "put", "rather", "re",
   "same", "see", "seem", "seemed", "seeming", "seems", "serious",
   "several", "she", "should", "show", "side", "since", "sincere", "six",
   "sixty", "so", "some", "somehow", "someone", "something", "sometime",
   "sometimes", "somewhere", "still", "such", "system", "take", "ten",
   "than", "that", "the", "their", "them", "themselves", "then", "thence",
   "there", "thereafter", "thereby", "therefore", "therein", "thereupon",
   "these", "they", "thick", "thin", "third", "this", "those", "though",
   "three", "through", "throughout", "thru", "thus", "to", "together",
   "too", "top", "toward", "towards", "twelve", "twenty", "two", "un",
   "under", "until", "up", "upon", "us", "very", "via", "was", "we", "well",
   "were", "what", "whatever", "when", "whence", "whenever", "where",
   "whereafter", "whereas", "whereby", "wherein", "whereupon", "wherever",
   "whether", "which", "while", "whither", "who", "whoever", "whole",
   "whom", "whose", "why", "will", "with", "within", "without", "would",
   "yet", "you", "your", "yours", "yourself", "yourselves"]

/-- sklearn's analyzer for one document: lowercase, tokenize, remove stop
words.  The terms of a document, in order, with multiplicity. -/
def analyze (d : String) : List String :=
  (sklearnTokenize (String.mk (lowerStr d.toList))).filter
    (fun t => t ∉ englishStopWords)

/-- First-occurrence deduplication (the model's replacement for sklearn's
sorted vocabulary; every claim below is invariant under vocabulary order). -/
def dedupKeep : List String → List String
  | [] => []
  | t :: r => t :: (dedupKeep r).filter (fun x => x ≠ t)

/-- The corpus vocabulary: every term of every document, once.
`fit_transform` raises exactly when this is empty. -/
def vocabulary (texts : List String) : List String :=
  dedupKeep (texts.flatMap analyze)

/-- Raw term frequency of `t` in document `d` (sklearn's default counts). -/
def termCount (d t : String) : Nat :=
  (analyze d).count t

/-- Document frequency: in how many corpus documents `t` occurs. -/
def docFreq (texts : List String) (t : String) : Nat :=
  (texts.filter (fun d => t ∈ analyze d)).length

/-- sklearn's smooth idf: `ln((1 + n) / (1 + df(t))) + 1`. -/
noncomputable def idf (texts : List String) (t : String) : ℝ :=
  Real.log ((1 + texts.length) / (1 + docFreq texts t)) + 1

/-- One entry of a document's tf-idf vector. -/
noncomputable def tfidfWeight (texts : List String) (d t : String) : ℝ :=
  (termCount d t : ℝ) * idf texts t

/-- Dot product of the tf-idf vectors of two documents over the corpus
vocabulary. -/
noncomputable def gramDocs (texts : List String) (x y : String) : ℝ :=
  ((vocabulary texts).map (fun t => tfidfWeight texts x t * tfidfWeight texts y t)).sum

/-- Dot product of the tf-idf vectors of documents `i` and `j`. -/
noncomputable def gram (texts : List String) (i j : Nat) : ℝ :=
  gramDocs texts (texts.getD i "") (texts.getD j "")

/-- Model of the `cosine_similarity` entry `(i, j)`: the cosine of the two tf-idf
vectors.  sklearn normalizes each row and leaves zero rows at zero, which
coincides with this formula under the `x / 0 = 0` convention: a zero
vector forces a zero numerator. -/
noncomputable def simEntry (texts : List String) (i j : Nat) : ℝ :=
  gram texts i j / (Real.sqrt (gram texts i i) * Real.sqrt (gram texts j j))

/-- The sklearn error message raised by `fit_transform` when no term
survives tokenization and stop-word removal. -/
def emptyVocabMsg : String :=
  "empty vocabulary; perhaps the documents only contain stop words"

/-- Model of `compare_texts` (app.py lines 31-35): `TfidfVectorizer(stop_words='english')`
`.fit_transform(texts)` followed by `cosine_similarity`.  `fit_transform`
raises `ValueError` when the corpus vocabulary is empty; otherwise the
similarity matrix is total on index pairs. -/
noncomputable def compare_texts (texts : List String) :
    Except String (Nat → Nat → ℝ) :=
  if vocabulary texts = [] then Except.error emptyVocabMsg
  else Except.ok (simEntry texts)

/-! ## Overlap extractor: `difflib.SequenceMatcher` (app.py lines 116-119) -/

/-- A matching block `(a, b, size)` as produced by
`SequenceMatcher.get_matching_blocks`: `a[a : a+size] == b[b : b+size]`. -/
structure MatchTriple where
  a : Nat
  b : Nat
  size : Nat
deriving DecidableEq

/-- Ascending list of the positions of `c` in `b` (difflib's `b2j` entry). -/
def positionsOf (b : List Char) (c : Char) : List Nat :=
  (List.range b.length).filter (fun j => b.getD j ' ' == c)

/-- difflib autojunk: when `len(b) >= 200`, elements occurring more than
`len(b) // 100 + 1` times are dropped from `b2j`. -/
def isPopular (b : List Char) (c : Char) : Bool :=
  decide (200 ≤ b.length) && decide (b.length / 100 + 1 < (positionsOf b c).length)

/-- difflib's `b2j` lookup: positions of `c` in `b`, with popular elements
removed (`isjunk = None`, so no junk set). -/
def b2j (b : List Char) (c : Char) : List Nat :=
  if isPopular b c then [] else positionsOf b c

/-- State of `find_longest_match`'s dynamic program: the `newj2len` dict of
the current row and the best match found so far. -/
structure FlmAcc where
  j2len : Nat → Nat
  besti : Nat
  bestj : Nat
  bestsize : Nat

/-- Invariant of the best triple during `find_longest_match`: it starts at
`(alo, blo)` and never leaves the `[alo, ahi) x [blo, bhi)` window. -/
def BestInvariant (alo blo ahi bhi : Nat) (acc : FlmAcc) : Prop :=
  alo ≤ acc.besti ∧ blo ≤ acc.bestj ∧
    acc.besti + acc.bestsize ≤ ahi ∧ acc.bestj + acc.bestsize ≤ bhi

/-- Invariant of a `j2len` row: a nonzero entry at `x` is a run inside
`[blo, bhi)` whose length is bounded by the processed width and by
`x + 1 - blo`. -/
def RowInvariant (alo blo bhi bound : Nat) (f : Nat → Nat) : Prop :=
  ∀ x, f x = 0 ∨ (blo ≤ x ∧ x < bhi ∧ f x ≤ bound - alo ∧ f x ≤ x + 1 - blo)

/-- Inner loop of `find_longest_match` over the `b`-positions of `a[i]`
(ascending, skipping `j < blo`, breaking at `j >= bhi`).  `old` is the
previous row's `j2len`; a run of length `old (j-1) + 1` ends at `(i, j)`
and the best triple is updated on strict improvement, which reproduces
difflib's tie-breaking (earliest `i`, then earliest `j`). -/
def flmJ (i blo bhi : Nat) (old : Nat → Nat) : List Nat → FlmAcc → FlmAcc
  | [], acc => acc
  | j :: js, acc =>
    if j < blo then flmJ i blo bhi old js acc
    else if bhi ≤ j then acc
    else
      let k := (if j = 0 then 0 else old (j - 1)) + 1
      let j2len' := fun x => if x = j then k else acc.j2len x
      if acc.bestsize < k then
        flmJ i blo bhi old js
          { j2len := j2len', besti := i + 1 - k, bestj := j + 1 - k, bestsize := k }
      else
        flmJ i blo bhi old js { acc with j2len := j2len' }

/-- Outer loop of `find_longest_match` over the rows `i` of `a[alo:ahi]`.
Each row starts from a fresh `newj2len` and reads the previous row's dict. -/
def flmRows (a b : List Char) (blo bhi : Nat) : List Nat → FlmAcc → FlmAcc
  | [], acc => acc
  | i :: is, acc =>
    flmRows a b blo bhi is
      (flmJ i blo bhi acc.j2len (b2j b (a.getD i ' ')) { acc with j2len := fun _ => 0 })

/-- difflib's first extension loop: grow the best match leftwards while the
preceding elements are equal (structural recursion on `besti`, which the
loop decrements; the guard `alo < besti` bounds it exactly as in difflib). -/
def extendLeft (a b : List Char) (alo blo : Nat) : Nat → Nat → Nat → Nat × Nat × Nat
  | 0, bestj, bestsize => (0, bestj, bestsize)
  | besti + 1, bestj, bestsize =>
    if alo < besti + 1 ∧ blo < bestj ∧ a[besti]? = b[bestj - 1]? ∧ (a[besti]?).isSome then
      extendLeft a b alo blo besti (bestj - 1) (bestsize + 1)
    else (besti + 1, bestj, bestsize)

/-- difflib's second extension loop: grow the best match rightwards while
the following elements are equal.  The fuel is `ahi - (besti + bestsize)`
at the call site, which is exactly the maximal number of iterations, so
the fuel never runs out before the loop guard fails. -/
def extendRight (a b : List Char) (ahi bhi besti bestj : Nat) : Nat → Nat → Nat
  | 0, bestsize => bestsize
  | fuel + 1, bestsize =>
    if besti + bestsize < ahi ∧ bestj + bestsize < bhi ∧
        a[besti + bestsize]? = b[bestj + bestsize]? ∧ (a[besti + bestsize]?).isSome then
      extendRight a b ahi bhi besti bestj fuel (bestsize + 1)
    else bestsize

/-- The dynamic-programming phase of `find_longest_match`: all rows of
`a[alo:ahi]`, starting from the empty dict and the zero match `(alo, blo, 0)`. -/
def flmBest (a b : List Char) (alo ahi blo bhi : Nat) : FlmAcc :=
  flmRows a b blo bhi (List.range' alo (ahi - alo))
    { j2len := fun _ => 0, besti := alo, bestj := blo, bestsize := 0 }

/-- The leftward extension applied to the best DP match. -/
def flmExt (a b : List Char) (alo blo : Nat) (acc : FlmAcc) : Nat × Nat × Nat :=
  extendLeft a b alo blo acc.besti acc.bestj acc.bestsize

/-- The rightward extension applied after the leftward one. -/
def flmFinish (a b : List Char) (ahi bhi : Nat) (e : Nat × Nat × Nat) : Nat × Nat × Nat :=
  (e.1, e.2.1, extendRight a b ahi bhi e.1 e.2.1 (ahi - (e.1 + e.2.2)) e.2.2)

/-- Model of `SequenceMatcher.find_longest_match(alo, ahi, blo, bhi)`.  With
`isjunk = None` the junk set is empty, so difflib's two junk extension
loops never fire and are omitted. -/
def find_longest_match (a b : List Char) (alo ahi blo bhi : Nat) : Nat × Nat × Nat :=
  flmFinish a b ahi bhi (flmExt a b alo blo (flmBest a b alo ahi blo bhi))

/-- The recursive block collection of `get_matching_blocks`: find the
longest match, then recurse on the left and right remainders exactly under
difflib's queue conditions.  difflib collects the blocks in a queue and
sorts at the end; in-order recursion yields that sorted list directly.
The fuel dominates the recursion depth (the combined interval size shrinks
at every call), so with fuel `len(a) + len(b) + 1` it never runs out. -/
def matchBlocksF (a b : List Char) : Nat → Nat → Nat → Nat → Nat → List MatchTriple
  | 0, _, _, _, _ => []
  | fuel + 1, alo, ahi, blo, bhi =>
    let t := find_longest_match a b alo ahi blo bhi
    if t.2.2 = 0 then []
    else
      (if alo < t.1 ∧ blo < t.2.1 then matchBlocksF a b fuel alo t.1 blo t.2.1 else [])
        ++ MatchTriple.mk t.1 t.2.1 t.2.2 ::
          (if t.1 + t.2.2 < ahi ∧ t.2.1 + t.2.2 < bhi then
            matchBlocksF a b fuel (t.1 + t.2.2) ahi (t.2.1 + t.2.2) bhi
          else [])

/-- The adjacent-block merge at the end of `get_matching_blocks`: a running
block absorbs blocks adjacent in both sequences; a finished nonzero block
is emitted.  Started with the zero block `(0, 0, 0)` as in difflib. -/
def mergeAdj : MatchTriple → List MatchTriple → List MatchTriple
  | cur, [] => if cur.size ≠ 0 then [cur] else []
  | cur, m :: ms =>
    if cur.a + cur.size = m.a ∧ cur.b + cur.size = m.b then
      mergeAdj (MatchTriple.mk cur.a cur.b (cur.size + m.size)) ms
    else
      (if cur.size ≠ 0 then [cur] else []) ++ mergeAdj m ms

/-- Model of `SequenceMatcher(None, a, b).get_matching_blocks()` (app.py line 117):
collect, merge adjacents, and append the `(len(a), len(b), 0)` terminator. -/
def get_matching_blocks (a b : List Char) : List MatchTriple :=
  mergeAdj (MatchTriple.mk 0 0 0)
      (matchBlocksF a b (a.length + b.length + 1) 0 a.length 0 b.length)
    ++ [MatchTriple.mk a.length b.length 0]

/-- Line 118 of app.py:
`[texts[i][block.a:block.a + block.size] for block in matching_blocks if block.size > 30]`. -/
def matched_content (a b : List Char) : List (List Char) :=
  ((get_matching_blocks a b).filter (fun bl => 30 < bl.size)).map
    (fun bl => (a.drop bl.a).take bl.size)

/-- Line 119 of app.py:
`"\n\n".join([f"...{chunk.strip()}..." for chunk in matched_content if chunk.strip()])`.
(A Python string is truthy exactly when nonempty.) -/
def matched_text (a b : List Char) : List Char :=
  List.intercalate ['\n', '\n']
    (((matched_content a b).filter (fun chunk => stripChars chunk ≠ [])).map
      (fun chunk => '.' :: '.' :: '.' :: stripChars chunk ++ ['.', '.', '.']))

/-! ## The module-level comparison loop (app.py lines 112-127) -/

/-- The pair iteration of the comparison loop (lines 112-114):
`for i in range(len(urls)): for j in range(i + 1, len(urls)):` with the
score `similarity_matrix[i][j]` read for each visited pair.  Every visited
pair is reported - the loop applies no threshold. -/
def selectedPairs (n : Nat) (matrix : Nat → Nat → ℚ) : List (Nat × Nat × ℚ) :=
  (List.range n).flatMap (fun i =>
    (List.range' (i + 1) (n - (i + 1))).map (fun j => (i, j, matrix i j)))

/-- Python's banker's rounding of a rational to an integer: round to
nearest, ties to the even integer. -/
def roundHalfEven (x : ℚ) : ℤ :=
  if x - ⌊x⌋ < 1 / 2 then ⌊x⌋
  else if 1 / 2 < x - ⌊x⌋ then ⌊x⌋ + 1
  else if ⌊x⌋ % 2 = 0 then ⌊x⌋ else ⌊x⌋ + 1

/-- Model of `round(score, 4)` (app.py line 124), exact over `ℚ`. -/
def round4 (x : ℚ) : ℚ :=
  (roundHalfEven (x * 10000) : ℚ) / 10000

/-- One record of `st.session_state['comparison_results']` (lines 121-127).
The similarity score is stored rounded to 4 decimal places; the evidence
string is `matched_text`.  (The `Diff HTML` field is presentation-only and
not modelled.) -/
structure PairRecord where
  url1 : String
  url2 : String
  score : ℚ
  matched : String
deriving DecidableEq

/-- The full comparison loop (lines 112-127) over a given similarity
matrix: one record per index pair `i < j`, in loop order. -/
def comparison_results (urls texts : List String) (matrix : Nat → Nat → ℚ) :
    List PairRecord :=
  (List.range urls.length).flatMap (fun i =>
    (List.range' (i + 1) (urls.length - (i + 1))).map (fun j =>
      PairRecord.mk (urls.getD i "") (urls.getD j "")
        (round4 (matrix i j))
        (String.mk (matched_text (texts.getD i "").toList (texts.getD j "").toList))))

/-! ## Helper lemmas -/

theorem mem_selectedPairs (n : Nat) (matrix : Nat → Nat → ℚ) (i j : Nat) (s : ℚ) :
    (i, j, s) ∈ selectedPairs n matrix ↔ i < j ∧ j < n ∧ s = matrix i j := by
  simp only [selectedPairs, List.mem_flatMap, List.mem_map, List.mem_range,
    List.mem_range'_1, Prod.mk.injEq]
  constructor
  · rintro ⟨i', hi', j', ⟨hj1, hj2⟩, hij, hjj, hs⟩
    subst hij; subst hjj
    exact ⟨by omega, by omega, hs.symm⟩
  · rintro ⟨hij, hjn, hs⟩
    exact ⟨i, by omega, j, ⟨by omega, by omega⟩, rfl, rfl, hs.symm⟩

theorem roundHalfEven_close (x : ℚ) : |(roundHalfEven x : ℚ) - x| ≤ 1 / 2 := by
  have hfl : (⌊x⌋ : ℚ) ≤ x := Int.floor_le x
  have hfu : x < ⌊x⌋ + 1 := Int.lt_floor_add_one x
  unfold roundHalfEven
  split_ifs with h1 h2 h3 <;> rw [abs_le] <;> push_cast <;> constructor <;> linarith

theorem abs_round4_sub_le (x : ℚ) : |round4 x - x| ≤ 1 / 20000 := by
  have h := roundHalfEven_close (x * 10000)
  have hx : round4 x - x = ((roundHalfEven (x * 10000) : ℚ) - x * 10000) / 10000 := by
    unfold round4; ring
  rw [hx, abs_div]
  have h10 : |(10000 : ℚ)| = 10000 := by norm_num
  rw [h10]
  linarith

theorem mem_comparison_results (urls texts : List String)
    (matrix : Nat → Nat → ℚ) (r : PairRecord)
    (hr : r ∈ comparison_results urls texts matrix) :
    ∃ i j, i < j ∧ j < urls.length ∧ r.score = round4 (matrix i j) := by
  simp only [comparison_results, List.mem_flatMap, List.mem_map, List.mem_range,
    List.mem_range'_1] at hr
  obtain ⟨i, hi, j, ⟨hj1, hj2⟩, hrec⟩ := hr
  exact ⟨i, j, by omega, by omega, by rw [← hrec]⟩

theorem stripChars_eq_nil_iff (cs : List Char) :
    stripChars cs = [] ↔ cs.all isWs := by
  unfold stripChars
  rw [List.reverse_eq_nil_iff, List.dropWhile_eq_nil_iff]
  constructor
  · intro h
    rw [List.all_eq_true]
    intro x hx
    rw [← List.takeWhile_append_dropWhile (p := isWs) (l := cs), List.mem_append] at hx
    rcases hx with hx | hx
    · exact List.mem_takeWhile_imp hx
    · exact h x (List.mem_reverse.mpr hx)
  · intro h x hx
    rw [List.all_eq_true] at h
    exact h x (List.dropWhile_subset _ (List.mem_reverse.mp hx))

/-! ## Normalizer lemmas (for claim C7) -/

theorem isWs_iff_toNat (c : Char) :
    isWs c = true ↔ c.toNat = 32 ∨ c.toNat = 9 ∨ c.toNat = 13 ∨ c.toNat = 10 := by
  unfold isWs Char.isWhitespace
  simp only [Bool.or_eq_true, decide_eq_true_eq]
  constructor
  · rintro (((h | h) | h) | h) <;> subst h <;> decide
  · have hc := Char.ofNat_toNat c
    rintro (h | h | h | h) <;> rw [← hc, h] <;> decide

theorem lowChar_toNat (c : Char) (h : 'A' ≤ c ∧ c ≤ 'Z') :
    (lowChar c).toNat = c.toNat + 32 := by
  have hv : (c.toNat + 32).isValidChar := by
    left
    have : c.toNat ≤ 90 := h.2
    omega
  rw [lowChar, if_pos h, Char.ofNat, dif_pos hv]
  rfl

theorem lowChar_idem (c : Char) : lowChar (lowChar c) = lowChar c := by
  by_cases h : 'A' ≤ c ∧ c ≤ 'Z'
  · have ht := lowChar_toNat c h
    have h1 : (65 : Nat) ≤ c.toNat := h.1
    have h2 : c.toNat ≤ 90 := h.2
    rw [lowChar, if_neg]
    intro hcon
    have h3 : (65 : Nat) ≤ (lowChar c).toNat := hcon.1
    have h4 : (lowChar c).toNat ≤ 90 := hcon.2
    omega
  · have hc : lowChar c = c := by rw [lowChar, if_neg h]
    rw [hc, hc]

theorem isWs_lowChar (c : Char) : isWs (lowChar c) = isWs c := by
  by_cases h : 'A' ≤ c ∧ c ≤ 'Z'
  · have ht := lowChar_toNat c h
    have h1 : (65 : Nat) ≤ c.toNat := h.1
    have h2 : c.toNat ≤ 90 := h.2
    have hl : isWs (lowChar c) = false := by
      rw [← Bool.not_eq_true, isWs_iff_toNat]
      omega
    have hr : isWs c = false := by
      rw [← Bool.not_eq_true, isWs_iff_toNat]
      omega
    rw [hl, hr]
  · rw [lowChar, if_neg h]

theorem lowerStr_idem (cs : List Char) : lowerStr (lowerStr cs) = lowerStr cs := by
  unfold lowerStr
  rw [List.map_map]
  apply List.map_congr_left
  intro c _
  exact lowChar_idem c

theorem lowerStr_collapseGo (b : Bool) (cs : List Char) :
    lowerStr (collapseGo b cs) = collapseGo b (lowerStr cs) := by
  induction cs generalizing b with
  | nil => rfl
  | cons c r ih =>
    show lowerStr (collapseGo b (c :: r)) = collapseGo b (lowChar c :: lowerStr r)
    unfold collapseGo
    rw [isWs_lowChar]
    by_cases hw : isWs c
    · rw [hw]
      by_cases hb : b
      · simp only [hb, if_true, ih]
      · simp only [hb, if_false, Bool.false_eq_true]
        show lowChar ' ' :: lowerStr (collapseGo true r) = ' ' :: collapseGo true (lowerStr r)
        rw [ih]
        rfl
    · simp only [hw, Bool.false_eq_true, if_false]
      show lowChar c :: lowerStr (collapseGo false r) = lowChar c :: collapseGo false (lowerStr r)
      rw [ih]

theorem collapseGo_eq_self (cs : List Char) (b : Bool) (h : noWsRun b cs = true) :
    collapseGo b cs = cs := by
  induction cs generalizing b with
  | nil => rfl
  | cons c r ih =>
    unfold noWsRun at h
    unfold collapseGo
    by_cases hw : isWs c
    · rw [hw] at h ⊢
      simp only [if_true, Bool.and_eq_true, Bool.not_eq_true', beq_iff_eq] at h
      obtain ⟨⟨hb, hc⟩, hr⟩ := h
      subst hb
      subst hc
      simp only [Bool.false_eq_true, if_false, if_true]
      rw [ih true hr]
    · simp only [hw, Bool.false_eq_true, if_false] at h ⊢
      rw [ih false h]

theorem noWsRun_collapseGo (cs : List Char) (b : Bool) :
    noWsRun b (collapseGo b cs) = true := by
  induction cs generalizing b with
  | nil => rfl
  | cons c r ih =>
    unfold collapseGo
    by_cases hw : isWs c
    · rw [hw]
      by_cases hb : b
      · subst hb
        simp only [if_true]
        exact ih true
      · simp only [hb, Bool.false_eq_true, if_false, if_true]
        unfold noWsRun
        have hsp : isWs ' ' = true := rfl
        rw [hsp]
        simp [ih true]
    · simp only [hw, Bool.false_eq_true, if_false]
      unfold noWsRun
      rw [if_neg hw]
      exact ih false

theorem collapseWs_idem (cs : List Char) : collapseWs (collapseWs cs) = collapseWs cs :=
  collapseGo_eq_self _ false (noWsRun_collapseGo cs false)

theorem dropWhile_head_not (p : Char → Bool) (l : List Char) :
    ∀ c ∈ (l.dropWhile p).head?, p c = false := by
  induction l with
  | nil => simp
  | cons a l ih =>
    rw [List.dropWhile_cons]
    by_cases hp : p a
    · simpa [hp] using ih
    · intro c hc
      rw [if_neg hp] at hc
      simp only [List.head?_cons, Option.mem_def, Option.some.injEq] at hc
      subst hc
      simpa using hp

theorem dropWhile_eq_self_of_head (p : Char → Bool) (l : List Char)
    (h : ∀ c ∈ l.head?, p c = false) : l.dropWhile p = l := by
  cases l with
  | nil => rfl
  | cons a l =>
    rw [List.dropWhile_cons, if_neg]
    rw [h a (by simp)]
    simp

theorem stripChars_head_not (cs : List Char) :
    ∀ c ∈ (stripChars cs).head?, isWs c = false := by
  intro c hc
  unfold stripChars at hc
  rw [List.head?_reverse] at hc
  obtain ⟨t, ht⟩ := List.dropWhile_suffix (l := (cs.dropWhile isWs).reverse) isWs
  have hx : c ∈ ((cs.dropWhile isWs).reverse).getLast? := by
    rw [← ht, List.getLast?_append]
    rw [Option.mem_def] at hc ⊢
    rw [hc]
    rfl
  rw [List.getLast?_reverse] at hx
  exact dropWhile_head_not isWs _ c hx

theorem stripChars_getLast_not (cs : List Char) :
    ∀ c ∈ (stripChars cs).getLast?, isWs c = false := by
  intro c hc
  unfold stripChars at hc
  rw [List.getLast?_reverse] at hc
  exact dropWhile_head_not isWs _ c hc

theorem stripChars_eq_self (cs : List Char)
    (hh : ∀ c ∈ cs.head?, isWs c = false)
    (hl : ∀ c ∈ cs.getLast?, isWs c = false) : stripChars cs = cs := by
  unfold stripChars
  rw [dropWhile_eq_self_of_head isWs cs hh]
  rw [dropWhile_eq_self_of_head isWs cs.reverse (by rwa [List.head?_reverse])]
  exact List.reverse_reverse cs

theorem lowerStr_head_not (cs : List Char)
    (hh : ∀ c ∈ cs.head?, isWs c = false) :
    ∀ c ∈ (lowerStr cs).head?, isWs c = false := by
  cases cs with
  | nil => simp [lowerStr]
  | cons a l =>
    intro c hc
    simp only [lowerStr, List.map_cons, List.head?_cons, Option.mem_def,
      Option.some.injEq] at hc
    subst hc
    rw [isWs_lowChar]
    exact hh a (by simp)

theorem lowerStr_getLast_not (cs : List Char)
    (hl : ∀ c ∈ cs.getLast?, isWs c = false) :
    ∀ c ∈ (lowerStr cs).getLast?, isWs c = false := by
  intro c hc
  rw [List.getLast?_eq_head?_reverse] at hc hl
  rw [lowerStr, ← List.map_reverse] at hc
  exact lowerStr_head_not cs.reverse hl c hc

theorem collapseGo_head_not (cs : List Char) (b : Bool)
    (hh : ∀ c ∈ cs.head?, isWs c = false) :
    ∀ c ∈ (collapseGo b cs).head?, isWs c = false := by
  cases cs with
  | nil => simp [collapseGo]
  | cons a l =>
    have ha : isWs a = false := hh a (by simp)
    intro c hc
    unfold collapseGo at hc
    rw [ha] at hc
    simp only [Bool.false_eq_true, if_false, List.head?_cons, Option.mem_def,
      Option.some.injEq] at hc
    subst hc
    exact ha

theorem collapseGo_getLast_not (cs : List Char) (b : Bool) (hcs : cs ≠ [])
    (hl : ∀ c ∈ cs.getLast?, isWs c = false) :
    collapseGo b cs ≠ [] ∧ ∀ c ∈ (collapseGo b cs).getLast?, isWs c = false := by
  induction cs generalizing b with
  | nil => exact absurd rfl hcs
  | cons a l ih =>
    by_cases hla : l = []
    · subst hla
      have ha : isWs a = false := hl a (by simp)
      unfold collapseGo
      rw [ha]
      simp only [Bool.false_eq_true, if_false]
      refine ⟨by simp, ?_⟩
      intro c hc
      simp only [collapseGo, List.getLast?_singleton, Option.mem_def,
        Option.some.injEq] at hc
      subst hc
      exact ha
    · have hl' : ∀ c ∈ l.getLast?, isWs c = false := by
        intro c hc
        apply hl c
        rw [show a :: l = [a] ++ l from rfl, List.getLast?_append]
        rw [Option.mem_def] at hc ⊢
        rw [hc]
        rfl
      unfold collapseGo
      by_cases hw : isWs a
      · rw [hw]
        simp only [if_true]
        by_cases hb : b
        · subst hb
          simp only [if_true]
          exact ih true hla hl'
        · simp only [hb, Bool.false_eq_true, if_false]
          obtain ⟨hne, hlast⟩ := ih true hla hl'
          refine ⟨by simp, ?_⟩
          intro c hc
          rw [show ' ' :: collapseGo true l = [' '] ++ collapseGo true l from rfl,
            List.getLast?_append] at hc
          rw [Option.mem_def] at hc
          rcases ho : (collapseGo true l).getLast? with _ | d
          · rw [List.getLast?_eq_none_iff] at ho
            exact absurd ho hne
          · rw [ho] at hc
            simp only [Option.or_some, Option.some.injEq] at hc
            subst hc
            exact hlast d (by rw [ho]; rfl)
      · rw [if_neg hw]
        obtain ⟨hne, hlast⟩ := ih false hla hl'
        refine ⟨by simp, ?_⟩
        intro c hc
        rw [show a :: collapseGo false l = [a] ++ collapseGo false l from rfl,
          List.getLast?_append] at hc
        rw [Option.mem_def] at hc
        rcases ho : (collapseGo false l).getLast? with _ | d
        · rw [List.getLast?_eq_none_iff] at ho
          exact absurd ho hne
        · rw [ho] at hc
          simp only [Option.or_some, Option.some.injEq] at hc
          subst hc
          exact hlast d (by rw [ho]; rfl)

theorem intercalate_sp_single (n : List Char) :
    List.intercalate [' '] [n] = n := by
  simp [List.intercalate]

theorem intercalate_sp_cons_ne (n : List Char) (rest : List (List Char)) (h : rest ≠ []) :
    List.intercalate [' '] (n :: rest) = n ++ ' ' :: List.intercalate [' '] rest := by
  cases rest with
  | nil => exact absurd rfl h
  | cons m ms => simp [List.intercalate, List.intersperse_cons₂]

theorem intercalate_edges (L : List (List Char))
    (h : ∀ n ∈ L, n ≠ [] ∧ (∀ c ∈ n.head?, isWs c = false) ∧
      (∀ c ∈ n.getLast?, isWs c = false)) :
    (∀ c ∈ (List.intercalate [' '] L).head?, isWs c = false) ∧
    (∀ c ∈ (List.intercalate [' '] L).getLast?, isWs c = false) ∧
    (L ≠ [] → List.intercalate [' '] L ≠ []) := by
  induction L with
  | nil => refine ⟨by simp [List.intercalate], by simp [List.intercalate], by simp⟩
  | cons n rest ih =>
    obtain ⟨hne, hh, hl⟩ := h n (by simp)
    by_cases hr : rest = []
    · subst hr
      rw [intercalate_sp_single]
      exact ⟨hh, hl, fun _ => hne⟩
    · obtain ⟨ih1, ih2, ih3⟩ := ih (fun m hm => h m (by simp [hm]))
      have hx : List.intercalate [' '] rest ≠ [] := ih3 hr
      rw [intercalate_sp_cons_ne n rest hr]
      refine ⟨?_, ?_, fun _ => ?_⟩
      · intro c hc
        rw [List.head?_append] at hc
        cases n with
        | nil => exact absurd rfl hne
        | cons a l =>
          rw [List.head?_cons] at hc
          have hor : (some a).or (' ' :: List.intercalate [' '] rest).head? = some a := rfl
          rw [Option.mem_def, hor, Option.some.injEq] at hc
          subst hc
          exact hh a (by simp)
      · intro c hc
        rw [List.getLast?_append] at hc
        have hsplit : (' ' :: List.intercalate [' '] rest).getLast? =
            (List.intercalate [' '] rest).getLast? := by
          rw [show (' ' :: List.intercalate [' '] rest) =
            [' '] ++ List.intercalate [' '] rest from rfl, List.getLast?_append]
          rcases hz : (List.intercalate [' '] rest).getLast? with _ | e
          · exact absurd (List.getLast?_eq_none_iff.mp hz) hx
          · rfl
        rw [hsplit] at hc
        rcases hz : (List.intercalate [' '] rest).getLast? with _ | e
        · exact absurd (List.getLast?_eq_none_iff.mp hz) hx
        · have hor : (some e).or (n.getLast?) = some e := rfl
          rw [Option.mem_def, hz, hor, Option.some.injEq] at hc
          subst hc
          exact ih2 e (by rw [Option.mem_def]; exact hz)
      · cases n with
        | nil => exact absurd rfl hne
        | cons a l => simp

theorem scanText_no_markup (cs : List Char) (h1 : '<' ∉ cs) (h2 : '&' ∉ cs) :
    scanText false cs = [cs] := by
  induction cs with
  | nil => rfl
  | cons c r ih =>
    have hc1 : c ≠ '<' := fun h => h1 (h ▸ List.mem_cons_self c r)
    have hc2 : c ≠ '&' := fun h => h2 (h ▸ List.mem_cons_self c r)
    have hr1 : '<' ∉ r := fun h => h1 (List.mem_cons_of_mem c h)
    have hr2 : '&' ∉ r := fun h => h2 (List.mem_cons_of_mem c h)
    have hdef : scanText false (c :: r) = consHead c (scanText false r) := by
      rcases r with _ | ⟨c2, r2⟩
      · rw [scanText.eq_def]
        split <;> simp_all
      · rcases r2 with _ | ⟨c3, r3⟩
        · rw [scanText.eq_def]
          split <;> simp_all
        · rcases r3 with _ | ⟨c4, r4⟩
          · rw [scanText.eq_def]
            split <;> simp_all
          · rw [scanText.eq_def]
            split <;> simp_all
    rw [hdef, ih hr1 hr2]
    rfl

theorem getTextStrip_edges (cs : List Char) :
    (∀ c ∈ (getTextStrip cs).head?, isWs c = false) ∧
    (∀ c ∈ (getTextStrip cs).getLast?, isWs c = false) := by
  have harg : ∀ n ∈ ((scanText false cs).map stripChars).filter (fun n => n ≠ []),
      n ≠ [] ∧ (∀ c ∈ n.head?, isWs c = false) ∧ (∀ c ∈ n.getLast?, isWs c = false) := by
    intro n hn
    rw [List.mem_filter] at hn
    obtain ⟨hmem, hne⟩ := hn
    obtain ⟨m, _, hm⟩ := List.mem_map.mp hmem
    refine ⟨by simpa using hne, ?_, ?_⟩
    · rw [← hm]
      exact stripChars_head_not m
    · rw [← hm]
      exact stripChars_getLast_not m
  have h := intercalate_edges _ harg
  exact ⟨h.1, h.2.1⟩

theorem getTextStrip_no_markup (tl : List Char) (h1 : '<' ∉ tl) (h2 : '&' ∉ tl)
    (hh : ∀ c ∈ tl.head?, isWs c = false) (hl : ∀ c ∈ tl.getLast?, isWs c = false)
    (hne : tl ≠ []) : getTextStrip tl = tl := by
  unfold getTextStrip
  rw [scanText_no_markup tl h1 h2]
  have hs : stripChars tl = tl := stripChars_eq_self tl hh hl
  simp only [List.map_cons, List.map_nil, hs]
  rw [show List.filter (fun n => n ≠ []) [tl] = [tl] from by simp [hne]]
  exact intercalate_sp_single tl

theorem lowerStr_collapseWs (cs : List Char) :
    lowerStr (collapseWs cs) = collapseWs (lowerStr cs) :=
  lowerStr_collapseGo false cs

/-! ## Overlap-extractor lemmas (claims C5 and C8) -/

theorem flmJ_inv (i blo bhi alo ahi : Nat) (old : Nat → Nat)
    (hia : alo ≤ i) (hih : i < ahi)
    (hold : RowInvariant alo blo bhi i old) :
    ∀ (js : List Nat) (acc : FlmAcc),
      BestInvariant alo blo ahi bhi acc →
      RowInvariant alo blo bhi (i + 1) acc.j2len →
      BestInvariant alo blo ahi bhi (flmJ i blo bhi old js acc) ∧
        RowInvariant alo blo bhi (i + 1) (flmJ i blo bhi old js acc).j2len := by
  intro js
  induction js with
  | nil =>
    intro acc h1 h2
    exact ⟨h1, h2⟩
  | cons j js ih =>
    intro acc h1 h2
    by_cases hjb : j < blo
    · rw [show flmJ i blo bhi old (j :: js) acc = flmJ i blo bhi old js acc from by
        rw [flmJ]; rw [if_pos hjb]]
      exact ih acc h1 h2
    · by_cases hjh : bhi ≤ j
      · rw [show flmJ i blo bhi old (j :: js) acc = acc from by
          rw [flmJ]; rw [if_neg hjb, if_pos hjh]]
        exact ⟨h1, h2⟩
      · have hk1 : (if j = 0 then 0 else old (j - 1)) + 1 ≤ i + 1 - alo := by
          by_cases hj0 : j = 0
          · rw [if_pos hj0]
            omega
          · rw [if_neg hj0]
            rcases hold (j - 1) with h | ⟨_, _, h3, _⟩
            · omega
            · omega
        have hk2 : (if j = 0 then 0 else old (j - 1)) + 1 ≤ j + 1 - blo := by
          by_cases hj0 : j = 0
          · rw [if_pos hj0]
            omega
          · rw [if_neg hj0]
            rcases hold (j - 1) with h | ⟨h3, _, _, h4⟩
            · omega
            · omega
        have hstep : flmJ i blo bhi old (j :: js) acc =
            (if acc.bestsize < (if j = 0 then 0 else old (j - 1)) + 1 then
              flmJ i blo bhi old js
                { j2len := fun x => if x = j then (if j = 0 then 0 else old (j - 1)) + 1
                    else acc.j2len x,
                  besti := i + 1 - ((if j = 0 then 0 else old (j - 1)) + 1),
                  bestj := j + 1 - ((if j = 0 then 0 else old (j - 1)) + 1),
                  bestsize := (if j = 0 then 0 else old (j - 1)) + 1 }
            else
              flmJ i blo bhi old js
                { acc with j2len := fun x => if x = j then
                    (if j = 0 then 0 else old (j - 1)) + 1 else acc.j2len x }) := by
          rw [flmJ]
          rw [if_neg hjb, if_neg hjh]
        rw [hstep]
        set k := (if j = 0 then 0 else old (j - 1)) + 1 with hk
        have hkpos : 1 ≤ k := by rw [hk]; omega
        have hrow : RowInvariant alo blo bhi (i + 1)
            (fun x => if x = j then k else acc.j2len x) := by
          intro x
          by_cases hx : x = j
          · subst hx
            right
            refine ⟨by omega, by omega, ?_, ?_⟩
            · simp only [if_pos rfl]
              exact hk1
            · simp only [if_pos rfl]
              exact hk2
          · simp only [if_neg hx]
            exact h2 x
        by_cases hbs : acc.bestsize < k
        · rw [if_pos hbs]
          apply ih
          · refine ⟨?_, ?_, ?_, ?_⟩
            · show alo ≤ i + 1 - k
              omega
            · show blo ≤ j + 1 - k
              omega
            · show i + 1 - k + k ≤ ahi
              omega
            · show j + 1 - k + k ≤ bhi
              omega
          · exact hrow
        · rw [if_neg hbs]
          exact ih _ ⟨h1.1, h1.2.1, h1.2.2.1, h1.2.2.2⟩ hrow

theorem flmRows_inv (a b : List Char) (alo blo bhi ahi : Nat) :
    ∀ (n lo : Nat) (acc : FlmAcc), alo ≤ lo → lo + n ≤ ahi →
      BestInvariant alo blo ahi bhi acc →
      RowInvariant alo blo bhi lo acc.j2len →
      BestInvariant alo blo ahi bhi
        (flmRows a b blo bhi (List.range' lo n) acc) := by
  intro n
  induction n with
  | zero =>
    intro lo acc _ _ h1 _
    exact h1
  | succ n ih =>
    intro lo acc hal hln h1 h2
    rw [List.range'_succ]
    rw [show flmRows a b blo bhi (lo :: List.range' (lo + 1) n) acc =
        flmRows a b blo bhi (List.range' (lo + 1) n)
          (flmJ lo blo bhi acc.j2len (b2j b (a.getD lo ' '))
            { acc with j2len := fun _ => 0 }) from by rw [flmRows]]
    have h3 := flmJ_inv lo blo bhi alo ahi acc.j2len hal (by omega) h2
      (b2j b (a.getD lo ' ')) { acc with j2len := fun _ => 0 }
      ⟨h1.1, h1.2.1, h1.2.2.1, h1.2.2.2⟩ (fun x => Or.inl rfl)
    exact ih (lo + 1) _ (by omega) (by omega) h3.1 h3.2

theorem extendLeft_inv (a b : List Char) (alo blo : Nat) :
    ∀ (bi bj bs : Nat), alo ≤ bi → blo ≤ bj →
      alo ≤ (extendLeft a b alo blo bi bj bs).1 ∧
      blo ≤ (extendLeft a b alo blo bi bj bs).2.1 ∧
      (extendLeft a b alo blo bi bj bs).1 + (extendLeft a b alo blo bi bj bs).2.2 =
        bi + bs ∧
      (extendLeft a b alo blo bi bj bs).2.1 + (extendLeft a b alo blo bi bj bs).2.2 =
        bj + bs := by
  intro bi
  induction bi with
  | zero =>
    intro bj bs h1 h2
    exact ⟨h1, h2, rfl, rfl⟩
  | succ bi ih =>
    intro bj bs h1 h2
    rw [extendLeft]
    by_cases hg : alo < bi + 1 ∧ blo < bj ∧ a[bi]? = b[bj - 1]? ∧ (a[bi]?).isSome
    · rw [if_pos hg]
      obtain ⟨k1, k2, k3, k4⟩ := ih (bj - 1) (bs + 1) (by omega) (by omega)
      exact ⟨k1, k2, by omega, by omega⟩
    · rw [if_neg hg]
      exact ⟨h1, h2, rfl, rfl⟩

theorem extendRight_le (a b : List Char) (ahi bhi bi bj : Nat) :
    ∀ (fuel bs : Nat), bi + bs ≤ ahi → bj + bs ≤ bhi →
      bi + extendRight a b ahi bhi bi bj fuel bs ≤ ahi ∧
      bj + extendRight a b ahi bhi bi bj fuel bs ≤ bhi := by
  intro fuel
  induction fuel with
  | zero =>
    intro bs h1 h2
    exact ⟨h1, h2⟩
  | succ fuel ih =>
    intro bs h1 h2
    rw [extendRight]
    by_cases hg : bi + bs < ahi ∧ bj + bs < bhi ∧
        a[bi + bs]? = b[bj + bs]? ∧ (a[bi + bs]?).isSome
    · rw [if_pos hg]
      exact ih (bs + 1) (by omega) (by omega)
    · rw [if_neg hg]
      exact ⟨h1, h2⟩

theorem find_longest_match_bounds (a b : List Char) (alo ahi blo bhi : Nat)
    (h1 : alo ≤ ahi) (h2 : blo ≤ bhi) :
    alo ≤ (find_longest_match a b alo ahi blo bhi).1 ∧
    blo ≤ (find_longest_match a b alo ahi blo bhi).2.1 ∧
    (find_longest_match a b alo ahi blo bhi).1 +
      (find_longest_match a b alo ahi blo bhi).2.2 ≤ ahi ∧
    (find_longest_match a b alo ahi blo bhi).2.1 +
      (find_longest_match a b alo ahi blo bhi).2.2 ≤ bhi := by
  have hb := flmRows_inv a b alo blo bhi ahi (ahi - alo) alo
    { j2len := fun _ => 0, besti := alo, bestj := blo, bestsize := 0 }
    le_rfl (by omega) ⟨le_rfl, le_rfl, by simpa using h1, by simpa using h2⟩
    (fun x => Or.inl rfl)
  have hbest : BestInvariant alo blo ahi bhi (flmBest a b alo ahi blo bhi) := hb
  obtain ⟨e1, e2, e3, e4⟩ := extendLeft_inv a b alo blo
    (flmBest a b alo ahi blo bhi).besti (flmBest a b alo ahi blo bhi).bestj
    (flmBest a b alo ahi blo bhi).bestsize hbest.1 hbest.2.1
  have hext1 : (flmExt a b alo blo (flmBest a b alo ahi blo bhi)).1 +
      (flmExt a b alo blo (flmBest a b alo ahi blo bhi)).2.2 ≤ ahi := by
    rw [flmExt, e3]
    exact hbest.2.2.1
  have hext2 : (flmExt a b alo blo (flmBest a b alo ahi blo bhi)).2.1 +
      (flmExt a b alo blo (flmBest a b alo ahi blo bhi)).2.2 ≤ bhi := by
    rw [flmExt, e4]
    exact hbest.2.2.2
  have hr := extendRight_le a b ahi bhi
    (flmExt a b alo blo (flmBest a b alo ahi blo bhi)).1
    (flmExt a b alo blo (flmBest a b alo ahi blo bhi)).2.1
    (ahi - ((flmExt a b alo blo (flmBest a b alo ahi blo bhi)).1 +
      (flmExt a b alo blo (flmBest a b alo ahi blo bhi)).2.2))
    (flmExt a b alo blo (flmBest a b alo ahi blo bhi)).2.2 hext1 hext2
  refine ⟨?_, ?_, ?_, ?_⟩
  · show alo ≤ (flmExt a b alo blo (flmBest a b alo ahi blo bhi)).1
    exact e1
  · show blo ≤ (flmExt a b alo blo (flmBest a b alo ahi blo bhi)).2.1
    exact e2
  · exact hr.1
  · exact hr.2

theorem matchBlocksF_inv (a b : List Char) :
    ∀ (fuel alo ahi blo bhi : Nat), alo ≤ ahi → blo ≤ bhi →
      (∀ m ∈ matchBlocksF a b fuel alo ahi blo bhi,
        alo ≤ m.a ∧ m.a + m.size ≤ ahi ∧ blo ≤ m.b ∧ m.b + m.size ≤ bhi ∧
          1 ≤ m.size) ∧
      (matchBlocksF a b fuel alo ahi blo bhi).Pairwise
        (fun x y => x.a + x.size ≤ y.a ∧ x.b + x.size ≤ y.b) := by
  intro fuel
  induction fuel with
  | zero =>
    intro alo ahi blo bhi _ _
    constructor
    · intro m hm
      simp [matchBlocksF] at hm
    · simp [matchBlocksF]
  | succ fuel ih =>
    intro alo ahi blo bhi h1 h2
    obtain ⟨f1, f2, f3, f4⟩ := find_longest_match_bounds a b alo ahi blo bhi h1 h2
    by_cases hk : (find_longest_match a b alo ahi blo bhi).2.2 = 0
    · have hnil : matchBlocksF a b (fuel + 1) alo ahi blo bhi = [] := by
        simp only [matchBlocksF]
        rw [if_pos hk]
      rw [hnil]
      exact ⟨fun m hm => absurd hm (List.not_mem_nil m), List.Pairwise.nil⟩
    · have hstep : matchBlocksF a b (fuel + 1) alo ahi blo bhi =
          (if alo < (find_longest_match a b alo ahi blo bhi).1 ∧
              blo < (find_longest_match a b alo ahi blo bhi).2.1 then
            matchBlocksF a b fuel alo (find_longest_match a b alo ahi blo bhi).1
              blo (find_longest_match a b alo ahi blo bhi).2.1
          else [])
          ++ MatchTriple.mk (find_longest_match a b alo ahi blo bhi).1
              (find_longest_match a b alo ahi blo bhi).2.1
              (find_longest_match a b alo ahi blo bhi).2.2 ::
            (if (find_longest_match a b alo ahi blo bhi).1 +
                  (find_longest_match a b alo ahi blo bhi).2.2 < ahi ∧
                (find_longest_match a b alo ahi blo bhi).2.1 +
                  (find_longest_match a b alo ahi blo bhi).2.2 < bhi then
              matchBlocksF a b fuel
                ((find_longest_match a b alo ahi blo bhi).1 +
                  (find_longest_match a b alo ahi blo bhi).2.2) ahi
                ((find_longest_match a b alo ahi blo bhi).2.1 +
                  (find_longest_match a b alo ahi blo bhi).2.2) bhi
            else []) := by
        simp only [matchBlocksF]
        rw [if_neg hk]
      rw [hstep]
      set i := (find_longest_match a b alo ahi blo bhi).1 with hi
      set j := (find_longest_match a b alo ahi blo bhi).2.1 with hj
      set k := (find_longest_match a b alo ahi blo bhi).2.2 with hk2
      have hL : (∀ m ∈ (if alo < i ∧ blo < j then
            matchBlocksF a b fuel alo i blo j else []),
          alo ≤ m.a ∧ m.a + m.size ≤ i ∧ blo ≤ m.b ∧ m.b + m.size ≤ j ∧
            1 ≤ m.size) ∧
          (if alo < i ∧ blo < j then
            matchBlocksF a b fuel alo i blo j else []).Pairwise
            (fun x y => x.a + x.size ≤ y.a ∧ x.b + x.size ≤ y.b) := by
        by_cases hg : alo < i ∧ blo < j
        · rw [if_pos hg]
          exact ih alo i blo j (by omega) (by omega)
        · rw [if_neg hg]
          exact ⟨fun m hm => absurd hm (List.not_mem_nil m), List.Pairwise.nil⟩
      have hR : (∀ m ∈ (if i + k < ahi ∧ j + k < bhi then
            matchBlocksF a b fuel (i + k) ahi (j + k) bhi else []),
          i + k ≤ m.a ∧ m.a + m.size ≤ ahi ∧ j + k ≤ m.b ∧ m.b + m.size ≤ bhi ∧
            1 ≤ m.size) ∧
          (if i + k < ahi ∧ j + k < bhi then
            matchBlocksF a b fuel (i + k) ahi (j + k) bhi else []).Pairwise
            (fun x y => x.a + x.size ≤ y.a ∧ x.b + x.size ≤ y.b) := by
        by_cases hg : i + k < ahi ∧ j + k < bhi
        · rw [if_pos hg]
          exact ih (i + k) ahi (j + k) bhi (by omega) (by omega)
        · rw [if_neg hg]
          exact ⟨fun m hm => absurd hm (List.not_mem_nil m), List.Pairwise.nil⟩
      constructor
      · intro m hm
        rw [List.mem_append, List.mem_cons] at hm
        rcases hm with hm | hm | hm
        · have := hL.1 m hm
          exact ⟨by omega, by omega, by omega, by omega, by omega⟩
        · rw [hm]
          refine ⟨f1, f3, f2, f4, ?_⟩
          show 1 ≤ k
          omega
        · have := hR.1 m hm
          exact ⟨by omega, by omega, by omega, by omega, by omega⟩
      · rw [List.pairwise_append]
        refine ⟨hL.2, ?_, ?_⟩
        · rw [List.pairwise_cons]
          refine ⟨?_, hR.2⟩
          intro y hy
          have := hR.1 y hy
          constructor
          · show i + k ≤ y.a
            omega
          · show j + k ≤ y.b
            omega
        · intro x hx y hy
          have hxb := hL.1 x hx
          rw [List.mem_cons] at hy
          rcases hy with hy | hy
          · rw [hy]
            constructor
            · show x.a + x.size ≤ i
              omega
            · show x.b + x.size ≤ j
              omega
          · have hyb := hR.1 y hy
            exact ⟨by omega, by omega⟩

theorem mergeAdj_inv (ahi : Nat) :
    ∀ (l : List MatchTriple) (cur : MatchTriple),
      cur.a + cur.size ≤ ahi →
      (∀ m ∈ l, m.a + m.size ≤ ahi ∧ 1 ≤ m.size) →
      (∀ m ∈ l, cur.a + cur.size ≤ m.a) →
      l.Pairwise (fun x y => x.a + x.size ≤ y.a) →
      (∀ m ∈ mergeAdj cur l, m.a + m.size ≤ ahi ∧ 1 ≤ m.size ∧ cur.a ≤ m.a) ∧
      (mergeAdj cur l).Pairwise (fun x y => x.a + x.size ≤ y.a) := by
  intro l
  induction l with
  | nil =>
    intro cur h1 _ _ _
    rw [mergeAdj]
    by_cases hz : cur.size ≠ 0
    · rw [if_pos hz]
      constructor
      · intro m hm
        rw [List.mem_singleton] at hm
        rw [hm]
        exact ⟨h1, by omega, le_rfl⟩
      · exact List.pairwise_singleton _ _
    · rw [if_neg hz]
      exact ⟨fun m hm => absurd hm (List.not_mem_nil m), List.Pairwise.nil⟩
  | cons m ms ih =>
    intro cur h1 h2 h3 h4
    rw [mergeAdj]
    have hmb := h2 m (List.mem_cons_self m ms)
    have hcm := h3 m (List.mem_cons_self m ms)
    rw [List.pairwise_cons] at h4
    by_cases hadj : cur.a + cur.size = m.a ∧ cur.b + cur.size = m.b
    · rw [if_pos hadj]
      have hih := ih (MatchTriple.mk cur.a cur.b (cur.size + m.size))
        (by show cur.a + (cur.size + m.size) ≤ ahi; omega)
        (fun x hx => h2 x (List.mem_cons_of_mem m hx))
        (fun x hx => by
          show cur.a + (cur.size + m.size) ≤ x.a
          have := h4.1 x hx
          omega)
        h4.2
      refine ⟨?_, hih.2⟩
      intro x hx
      have := hih.1 x hx
      exact ⟨this.1, this.2.1, this.2.2⟩
    · rw [if_neg hadj]
      obtain ⟨ih1, ih2⟩ := ih m hmb.1
        (fun x hx => h2 x (List.mem_cons_of_mem m hx))
        (fun x hx => by
          have := h4.1 x hx
          omega)
        h4.2
      by_cases hz : cur.size ≠ 0
      · rw [if_pos hz]
        rw [List.singleton_append]
        constructor
        · intro x hx
          rw [List.mem_cons] at hx
          rcases hx with hx | hx
          · rw [hx]
            exact ⟨h1, by omega, le_rfl⟩
          · have := ih1 x hx
            exact ⟨this.1, this.2.1, by omega⟩
        · rw [List.pairwise_cons]
          refine ⟨?_, ih2⟩
          intro y hy
          have := ih1 y hy
          omega
      · rw [if_neg hz]
        rw [List.nil_append]
        refine ⟨?_, ih2⟩
        intro x hx
        have := ih1 x hx
        exact ⟨this.1, this.2.1, by omega⟩

theorem get_matching_blocks_bounds (a b : List Char) :
    (∀ m ∈ get_matching_blocks a b, m.a + m.size ≤ a.length) ∧
    ((get_matching_blocks a b).filter (fun m => 30 < m.size)).Pairwise
      (fun x y => x.a < y.a) := by
  obtain ⟨raw1, raw2⟩ := matchBlocksF_inv a b (a.length + b.length + 1)
    0 a.length 0 b.length (Nat.zero_le _) (Nat.zero_le _)
  obtain ⟨m1, m2⟩ := mergeAdj_inv a.length
    (matchBlocksF a b (a.length + b.length + 1) 0 a.length 0 b.length)
    (MatchTriple.mk 0 0 0)
    (by show 0 + 0 ≤ a.length; omega)
    (fun m hm => ⟨(raw1 m hm).2.1, (raw1 m hm).2.2.2.2⟩)
    (fun m hm => by
      show 0 + 0 ≤ m.a
      omega)
    (raw2.imp (fun h => h.1))
  unfold get_matching_blocks
  constructor
  · intro m hm
    rw [List.mem_append] at hm
    rcases hm with hm | hm
    · exact (m1 m hm).1
    · rw [List.mem_singleton] at hm
      rw [hm]
      show a.length + 0 ≤ a.length
      omega
  · rw [List.filter_append]
    have hterm : List.filter (fun m => 30 < m.size) [MatchTriple.mk a.length b.length 0] =
        [] := by
      simp
    rw [hterm, List.append_nil]
    have hp := m2.filter (fun m => decide (30 < m.size))
    apply List.Pairwise.imp_of_mem ?_ hp
    intro x y hx hy hxy
    rw [List.mem_filter] at hx
    have hx2 : 1 ≤ x.size := (m1 x hx.1).2.1
    omega

/-! ## Claims -/

/-- Claim C1, amended: the comparison loop visits exactly the unordered
index pairs `i < j` and reports every one of them with its matrix entry -
it applies no threshold, so below-threshold pairs appear as well. -/
theorem claim_C1_pairs (n : Nat) (matrix : Nat → Nat → ℚ) (i j : Nat) (s : ℚ) :
    (i, j, s) ∈ selectedPairs n matrix ↔ i < j ∧ j < n ∧ s = matrix i j :=
  mem_selectedPairs n matrix i j s

/-- Claim C1, counterexample to the claim as stated: in a 3-document corpus
at threshold 0.8 where only pair (0,2) scores 0.85, the loop still reports
the below-threshold pair (0,1) with score 0.5, and the result list is not
`[(0, 2, 0.85)]`. -/
theorem claim_C1_counterexample :
    (0, 1, (1 : ℚ) / 2) ∈
        selectedPairs 3
          (fun i j => if i = 0 ∧ j = 2 then 17 / 20 else if i = j then 1 else 1 / 2) ∧
      selectedPairs 3
          (fun i j => if i = 0 ∧ j = 2 then 17 / 20 else if i = j then 1 else 1 / 2) ≠
        [(0, 2, 17 / 20)] := by
  constructor
  · refine (mem_selectedPairs _ _ _ _ _).mpr ⟨by norm_num, by norm_num, by norm_num⟩
  · intro h
    have h3 : (selectedPairs 3
        (fun i j => if i = 0 ∧ j = 2 then 17 / 20 else if i = j then 1 else 1 / 2)).length = 3 := rfl
    rw [h] at h3
    simp at h3

/-- Claim C3, amended: a fetch or normalization failure is replaced by the
non-empty placeholder string `"Error: <reason>"` (not by an empty string),
and every URL still contributes exactly one entry to the compared corpus,
so one bad document never aborts the run. -/
theorem claim_C3_placeholder (status : Nat) (body msg : String)
    (outcomes : List FetchOutcome) :
    fetch_content (FetchOutcome.exn msg) = "Error: " ++ msg ∧
    (status ≠ 200 →
      fetch_content (FetchOutcome.response status body) = "Error: " ++ toString status) ∧
    (clean_text body = Except.error msg →
      fetch_content (FetchOutcome.response 200 body) = "Error: " ++ msg) ∧
    "Error: " ++ msg ≠ "" ∧
    (fetchAll outcomes).length = outcomes.length := by
  refine ⟨rfl, fun h => ?_, fun h => ?_, fun h => ?_, by simp [fetchAll]⟩
  · simp [fetch_content, h]
  · simp [fetch_content, h]
  · have h2 := congrArg String.length h
    rw [String.length_append, show ("Error: ").length = 7 from rfl,
      show ("" : String).length = 0 from rfl] at h2
    omega

/-- Claim C3, witness: the amended behavior at concrete inputs - a 404
response and a raised exception both produce `"Error: ..."` placeholders. -/
theorem claim_C3_witness :
    fetch_content (FetchOutcome.response 404 "x") = "Error: " ++ toString 404 ∧
    fetch_content (FetchOutcome.exn "boom") = "Error: boom" :=
  ⟨(claim_C3_placeholder 404 "x" "boom" []).2.1 (by decide),
   (claim_C3_placeholder 404 "x" "boom" []).1⟩

/-- Claim C3, counterexample to the claim as stated: the placeholder for a
failed document is not the empty string - a 404 fetch yields the non-empty
text `"Error: 404"`. -/
theorem claim_C3_counterexample :
    fetch_content (FetchOutcome.response 404 "whatever") = "Error: 404" ∧
    fetch_content (FetchOutcome.response 404 "whatever") ≠ "" := by
  constructor <;> decide

/-- Claim C9: every reported record stores, as its similarity score, the
matrix entry of its pair rounded to 4 decimal places, so the reported score
differs from the exact entry by at most 0.00005. -/
theorem claim_C9_rounded (urls texts : List String) (matrix : Nat → Nat → ℚ)
    (r : PairRecord) (hr : r ∈ comparison_results urls texts matrix) :
    ∃ i j, i < j ∧ j < urls.length ∧ r.score = round4 (matrix i j) ∧
      |r.score - matrix i j| ≤ 1 / 20000 := by
  obtain ⟨i, j, hij, hj, hs⟩ := mem_comparison_results urls texts matrix r hr
  exact ⟨i, j, hij, hj, hs, by rw [hs]; exact abs_round4_sub_le _⟩

/-- Claim C9, witness: the rounding property instantiated on a concrete
two-document run. -/
theorem claim_C9_witness :
    (PairRecord.mk "u" "v" (round4 (1 / 3))
        (String.mk (matched_text "ab".toList "cd".toList)) ∈
      comparison_results ["u", "v"] ["ab", "cd"] (fun _ _ => 1 / 3)) ∧
    ∃ i j, i < j ∧ j < (["u", "v"] : List String).length ∧
      (PairRecord.mk "u" "v" (round4 (1 / 3))
        (String.mk (matched_text "ab".toList "cd".toList))).score =
          round4 ((fun _ _ => (1 : ℚ) / 3) i j) ∧
      |(PairRecord.mk "u" "v" (round4 (1 / 3))
        (String.mk (matched_text "ab".toList "cd".toList))).score -
          (fun _ _ => (1 : ℚ) / 3) i j| ≤ 1 / 20000 := by
  have hm : PairRecord.mk "u" "v" (round4 (1 / 3))
      (String.mk (matched_text "ab".toList "cd".toList)) ∈
      comparison_results ["u", "v"] ["ab", "cd"] (fun _ _ => 1 / 3) := by
    show _ ∈ comparison_results _ _ _
    rw [show comparison_results ["u", "v"] ["ab", "cd"] (fun _ _ => 1 / 3) =
      [PairRecord.mk "u" "v" (round4 (1 / 3))
        (String.mk (matched_text "ab".toList "cd".toList))] from rfl]
    exact List.mem_singleton.mpr rfl
  exact ⟨hm, claim_C9_rounded _ _ _ _ hm⟩

/-- Claim C10: the evidence string is built by stripping each kept chunk,
omitting chunks that are entirely whitespace (strip to the empty string),
wrapping the rest in ellipses and joining them with blank lines; stripping
to empty characterizes exactly the all-whitespace chunks. -/
theorem claim_C10_evidence (a b : List Char) (chunk : List Char) :
    matched_text a b =
      List.intercalate ['\n', '\n']
        ((((matched_content a b).map stripChars).filter (fun c => c ≠ [])).map
          (fun c => '.' :: '.' :: '.' :: c ++ ['.', '.', '.'])) ∧
    (stripChars chunk = [] ↔ chunk.all isWs) := by
  refine ⟨?_, stripChars_eq_nil_iff chunk⟩
  unfold matched_text
  rw [List.filter_map, List.map_map]
  rfl

theorem mem_dedupKeep (x : String) (l : List String) :
    x ∈ dedupKeep l ↔ x ∈ l := by
  induction l with
  | nil => simp [dedupKeep]
  | cons t r ih =>
    by_cases hx : x = t <;> simp [dedupKeep, List.mem_filter, hx, ih]

theorem vocabulary_eq_nil (texts : List String)
    (h : ∀ d ∈ texts, analyze d = []) : vocabulary texts = [] := by
  unfold vocabulary
  have h2 : texts.flatMap analyze = [] := by
    rw [List.flatMap_eq_nil_iff]
    exact h
  rw [h2]
  rfl

theorem mem_vocabulary (texts : List String) (d t : String)
    (hd : d ∈ texts) (ht : t ∈ analyze d) : t ∈ vocabulary texts := by
  unfold vocabulary
  rw [mem_dedupKeep]
  exact List.mem_flatMap.mpr ⟨d, hd, ht⟩

theorem docFreq_le_length (texts : List String) (t : String) :
    docFreq texts t ≤ texts.length :=
  List.length_filter_le _ _

theorem one_le_idf (texts : List String) (t : String) : 1 ≤ idf texts t := by
  unfold idf
  have hlog : 0 ≤ Real.log ((1 + texts.length) / (1 + docFreq texts t)) := by
    apply Real.log_nonneg
    rw [le_div_iff₀ (by positivity)]
    have := docFreq_le_length texts t
    have hc : (docFreq texts t : ℝ) ≤ texts.length := by exact_mod_cast this
    linarith
  linarith

theorem tfidfWeight_nonneg (texts : List String) (d t : String) :
    0 ≤ tfidfWeight texts d t := by
  unfold tfidfWeight
  have h1 := one_le_idf texts t
  positivity

theorem termCount_eq_zero (d t : String) (h : analyze d = []) :
    termCount d t = 0 := by
  unfold termCount
  rw [h]
  rfl

theorem gramDocs_left_degenerate (texts : List String) (x y : String)
    (hx : analyze x = []) : gramDocs texts x y = 0 := by
  unfold gramDocs
  apply List.sum_eq_zero
  intro v hv
  obtain ⟨t, _, hmap⟩ := List.mem_map.mp hv
  rw [← hmap]
  unfold tfidfWeight
  rw [termCount_eq_zero x t hx]
  push_cast
  ring

theorem gram_diag_nonneg (texts : List String) (i : Nat) :
    0 ≤ gram texts i i := by
  unfold gram gramDocs
  apply List.sum_nonneg
  intro v hv
  obtain ⟨t, _, hmap⟩ := List.mem_map.mp hv
  rw [← hmap]
  exact mul_nonneg (tfidfWeight_nonneg _ _ _) (tfidfWeight_nonneg _ _ _)

theorem gram_diag_pos (texts : List String) (i : Nat) (hi : i < texts.length)
    (hne : analyze (texts.getD i "") ≠ []) : 0 < gram texts i i := by
  set d := texts.getD i "" with hd
  obtain ⟨t0, ht0⟩ := List.exists_mem_of_ne_nil _ hne
  have hdmem : d ∈ texts := by
    rw [hd, List.getD_eq_getElem _ _ hi]
    exact List.getElem_mem hi
  have hvoc : t0 ∈ vocabulary texts := mem_vocabulary texts d t0 hdmem ht0
  have hterm : (1 : ℝ) ≤ tfidfWeight texts d t0 * tfidfWeight texts d t0 := by
    have hcnt : 1 ≤ termCount d t0 := by
      unfold termCount
      exact List.count_pos_iff.mpr ht0
    have hcnt' : (1 : ℝ) ≤ (termCount d t0 : ℝ) := by exact_mod_cast hcnt
    have hidf := one_le_idf texts t0
    have hw : (1 : ℝ) ≤ tfidfWeight texts d t0 := by
      unfold tfidfWeight
      nlinarith
    nlinarith
  have hmm : tfidfWeight texts d t0 * tfidfWeight texts d t0 ∈
      (vocabulary texts).map (fun t => tfidfWeight texts d t * tfidfWeight texts d t) :=
    List.mem_map_of_mem _ hvoc
  have hle := List.single_le_sum (l := (vocabulary texts).map
      (fun t => tfidfWeight texts d t * tfidfWeight texts d t))
    (fun v hv => by
      obtain ⟨t, _, hmap⟩ := List.mem_map.mp hv
      rw [← hmap]
      exact mul_nonneg (tfidfWeight_nonneg _ _ _) (tfidfWeight_nonneg _ _ _)) _ hmm
  unfold gram gramDocs
  rw [← hd]
  linarith

theorem simEntry_diag_one (texts : List String) (i : Nat)
    (h : 0 < gram texts i i) : simEntry texts i i = 1 := by
  unfold simEntry
  rw [Real.mul_self_sqrt h.le]
  exact div_self h.ne'

theorem simEntry_left_degenerate (texts : List String) (i j : Nat)
    (h : analyze (texts.getD i "") = []) : simEntry texts i j = 0 := by
  unfold simEntry gram
  rw [gramDocs_left_degenerate texts _ _ h]
  exact zero_div _

/-- Claim C2, amended: a corpus in which every document is degenerate
(empty or all stop words) makes `compare_texts` raise sklearn's
empty-vocabulary `ValueError` rather than return a matrix; a matrix is
returned exactly when some term survives, and then a degenerate document
has similarity 0 with every document (its tf-idf vector is all zero). -/
theorem claim_C2_degenerate (texts : List String) :
    ((∀ d ∈ texts, analyze d = []) →
      compare_texts texts = Except.error emptyVocabMsg) ∧
    (vocabulary texts ≠ [] →
      compare_texts texts = Except.ok (simEntry texts) ∧
      ∀ i j, analyze (texts.getD i "") = [] → simEntry texts i j = 0) := by
  constructor
  · intro h
    unfold compare_texts
    rw [if_pos (vocabulary_eq_nil texts h)]
  · intro hv
    refine ⟨by unfold compare_texts; rw [if_neg hv], ?_⟩
    intro i j h
    exact simEntry_left_degenerate texts i j h

/-- Claim C2, witness: a concrete all-degenerate corpus raises the
empty-vocabulary error, and a concrete degenerate document scores 0
against a non-degenerate one. -/
theorem claim_C2_witness :
    compare_texts ["the of", "and or", ""] = Except.error emptyVocabMsg ∧
    simEntry ["apple apple", "the"] 1 0 = 0 := by
  refine ⟨(claim_C2_degenerate _).1 (by decide), ?_⟩
  exact ((claim_C2_degenerate ["apple apple", "the"]).2 (by decide)).2 1 0 (by decide)

/-- Claim C2, counterexample to the claim as stated: on a corpus of only
degenerate texts the engine does not return a matrix - `compare_texts`
raises (the model's error branch), so no `Except.ok` value exists. -/
theorem claim_C2_counterexample :
    compare_texts ["the of and", ""] = Except.error emptyVocabMsg ∧
    ∀ M : Nat → Nat → ℝ, compare_texts ["the of and", ""] ≠ Except.ok M := by
  have h : compare_texts ["the of and", ""] = Except.error emptyVocabMsg := by
    unfold compare_texts
    rw [if_pos (by decide)]
  refine ⟨h, fun M hM => ?_⟩
  rw [h] at hM
  exact Except.noConfusion hM

/-- Claim C6, amended: whenever `compare_texts` returns a matrix, the
diagonal entry of a non-degenerate document is exactly 1, but the diagonal
entry of a degenerate document (zero tf-idf vector) is 0, not 1. -/
theorem claim_C6_diagonal (texts : List String) (M : Nat → Nat → ℝ) (i : Nat)
    (hM : compare_texts texts = Except.ok M) (hi : i < texts.length) :
    (analyze (texts.getD i "") ≠ [] → M i i = 1) ∧
    (analyze (texts.getD i "") = [] → M i i = 0) := by
  have hMs : M = simEntry texts := by
    unfold compare_texts at hM
    by_cases hv : vocabulary texts = []
    · rw [if_pos hv] at hM
      exact Except.noConfusion hM
    · rw [if_neg hv] at hM
      exact (Except.ok.injEq _ _ ▸ hM).symm
  subst hMs
  constructor
  · intro h
    exact simEntry_diag_one texts i (gram_diag_pos texts i hi h)
  · intro h
    exact simEntry_left_degenerate texts i i h

/-- Claim C6, witness: on a concrete corpus the returned matrix has
diagonal 1 at the non-degenerate document. -/
theorem claim_C6_witness :
    compare_texts ["apple banana", "the of"] =
      Except.ok (simEntry ["apple banana", "the of"]) ∧
    simEntry ["apple banana", "the of"] 0 0 = 1 := by
  have hM : compare_texts ["apple banana", "the of"] =
      Except.ok (simEntry ["apple banana", "the of"]) := by
    unfold compare_texts
    rw [if_neg (by decide)]
  exact ⟨hM, (claim_C6_diagonal _ _ 0 hM (by decide)).1 (by decide)⟩

/-- Claim C6, counterexample to the claim as stated: the matrix of the
corpus `["apple banana", "the of"]` exists, but its diagonal entry for the
stop-word-only document 1 is 0, not 1. -/
theorem claim_C6_counterexample :
    compare_texts ["apple banana", "the of"] =
      Except.ok (simEntry ["apple banana", "the of"]) ∧
    simEntry ["apple banana", "the of"] 1 1 = 0 ∧
    simEntry ["apple banana", "the of"] 1 1 ≠ 1 := by
  refine ⟨by unfold compare_texts; rw [if_neg (by decide)], ?_, ?_⟩
  · exact simEntry_left_degenerate _ 1 1 (by decide)
  · rw [simEntry_left_degenerate _ 1 1 (by decide)]
    exact zero_ne_one

set_option maxRecDepth 40000 in
/-- Claim C4, amended: for the two identical texts
`"the quick brown fox jumps"` the pipeline does yield similarity exactly 1,
but it reports zero matched spans, not one span covering the whole text:
the full-text match has 25 characters and the loop keeps only blocks of
size strictly greater than 30. -/
theorem claim_C4_identical :
    compare_texts ["the quick brown fox jumps", "the quick brown fox jumps"] =
      Except.ok (simEntry ["the quick brown fox jumps", "the quick brown fox jumps"]) ∧
    simEntry ["the quick brown fox jumps", "the quick brown fox jumps"] 0 1 = 1 ∧
    matched_content "the quick brown fox jumps".toList
      "the quick brown fox jumps".toList = [] := by
  refine ⟨by unfold compare_texts; rw [if_neg (by decide)], ?_, by decide⟩
  have e1 : gram ["the quick brown fox jumps", "the quick brown fox jumps"] 0 1 =
      gram ["the quick brown fox jumps", "the quick brown fox jumps"] 0 0 := rfl
  have e2 : gram ["the quick brown fox jumps", "the quick brown fox jumps"] 1 1 =
      gram ["the quick brown fox jumps", "the quick brown fox jumps"] 0 0 := rfl
  have hg : 0 < gram ["the quick brown fox jumps", "the quick brown fox jumps"] 0 0 :=
    gram_diag_pos _ 0 (by decide) (by decide)
  unfold simEntry
  rw [e1, e2, Real.mul_self_sqrt hg.le]
  exact div_self hg.ne'

set_option maxRecDepth 40000 in
/-- Claim C4, counterexample to the claim as stated: on the two identical
texts the list of matched spans is empty - in particular it is not the
single span covering the whole text. -/
theorem claim_C4_counterexample :
    matched_content "the quick brown fox jumps".toList
      "the quick brown fox jumps".toList = [] ∧
    matched_content "the quick brown fox jumps".toList
        "the quick brown fox jumps".toList ≠
      ["the quick brown fox jumps".toList] := by
  constructor <;> decide

/-- Claim C7, amended: normalization is idempotent on every non-empty
normalized output that contains no markup-significant character (`<` or
`&`); on such a text a second `clean_text` run returns it unchanged.
(Outputs containing `<` or `&` can be re-parsed as markup/entities, and the
empty output makes the second run fail, so those are excluded.) -/
theorem claim_C7_idempotent (html t : String)
    (hok : clean_text html = Except.ok t) (hne : t ≠ "")
    (hlt : '<' ∉ t.toList) (hamp : '&' ∉ t.toList) :
    clean_text t = Except.ok t := by
  unfold clean_text at hok
  by_cases hws : html.toList.all isWs
  · rw [if_pos hws] at hok
    exact Except.noConfusion hok
  · rw [if_neg hws] at hok
    rw [Except.ok.injEq] at hok
    by_cases hu : getTextStrip html.toList = []
    · exfalso
      apply hne
      rw [← hok, hu]
      rfl
    · have htl : t.toList = collapseWs (lowerStr (getTextStrip html.toList)) := by
        rw [← hok]
        rfl
      obtain ⟨hhead, hlast⟩ := getTextStrip_edges html.toList
      have hIl : lowerStr (getTextStrip html.toList) ≠ [] := by
        intro hcon
        apply hu
        have hlen := congrArg List.length hcon
        rw [lowerStr, List.length_map] at hlen
        exact List.length_eq_zero.mp hlen
      have h_head_t : ∀ c ∈ t.toList.head?, isWs c = false := by
        rw [htl]
        exact collapseGo_head_not _ false (lowerStr_head_not _ hhead)
      obtain ⟨htne, h_last_t⟩ :=
        collapseGo_getLast_not (lowerStr (getTextStrip html.toList)) false hIl
          (lowerStr_getLast_not _ hlast)
      have hnotall : ¬(t.toList.all isWs = true) := by
        intro hall
        rcases hl2 : t.toList with _ | ⟨c, r⟩
        · rw [htl] at hl2
          exact htne hl2
        · have hcw := List.all_eq_true.mp hall c (by rw [hl2]; exact List.mem_cons_self c r)
          have hcf := h_head_t c (by rw [hl2]; rfl)
          rw [hcf] at hcw
          exact Bool.noConfusion hcw
      unfold clean_text
      rw [if_neg hnotall]
      have hg : getTextStrip t.toList = t.toList :=
        getTextStrip_no_markup _ hlt hamp h_head_t
          (by rw [htl]; exact h_last_t) (by rw [htl]; exact htne)
      rw [hg, htl, lowerStr_collapseWs, lowerStr_idem, collapseWs_idem]
      rw [show String.mk (collapseWs (lowerStr (getTextStrip html.toList))) =
        String.mk t.toList from by rw [htl]]
      rfl

/-- Claim C7, witness: a concrete html document whose normalized output
survives a second normalization unchanged. -/
theorem claim_C7_witness :
    clean_text "<p>Hello   World</p>" = Except.ok "hello world" ∧
    clean_text "hello world" = Except.ok "hello world" :=
  ⟨rfl, claim_C7_idempotent "<p>Hello   World</p>" "hello world" rfl
    (by decide) (by decide) (by decide)⟩

/-- Claim C7, counterexample to the claim as stated: normalization is not
idempotent on every input - the html `a&lt;p&gt;c` normalizes to `a<p>c`,
but normalizing `a<p>c` again strips `<p>` as a tag and yields `a c`. -/
theorem claim_C7_counterexample :
    clean_text "a&lt;p&gt;c" = Except.ok "a<p>c" ∧
    clean_text "a<p>c" = Except.ok "a c" ∧
    clean_text "a<p>c" ≠ Except.ok "a<p>c" := by
  refine ⟨rfl, rfl, ?_⟩
  intro h
  rw [show clean_text "a<p>c" = Except.ok "a c" from rfl, Except.ok.injEq] at h
  exact absurd h (by decide)

set_option maxRecDepth 40000 in
/-- Claim C5: a matching block is kept as a matched span exactly when its
size is strictly greater than 30 (the `min_length` policy constant), every
span in the output therefore has length strictly greater than 30, and a
10-character match yields zero spans. -/
theorem claim_C5_filter (a b : List Char) :
    matched_content a b =
      ((get_matching_blocks a b).filter (fun bl => 30 < bl.size)).map
        (fun bl => (a.drop bl.a).take bl.size) ∧
    (∀ s ∈ matched_content a b, 30 < s.length) ∧
    matched_content "0123456789".toList "0123456789".toList = [] := by
  refine ⟨rfl, ?_, by decide⟩
  intro s hs
  unfold matched_content at hs
  obtain ⟨bl, hbl, hmap⟩ := List.mem_map.mp hs
  rw [List.mem_filter] at hbl
  have hsize : 30 < bl.size := by simpa using hbl.2
  have hbound := (get_matching_blocks_bounds a b).1 bl hbl.1
  rw [← hmap, List.length_take, List.length_drop]
  omega

set_option maxRecDepth 100000 in
/-- Claim C5, witness: a concrete 35-character identical pair produces one
span, and the span-length bound instantiates on it. -/
theorem claim_C5_witness :
    "abcdefghij klmnopqrst uvwxyz 123456".toList ∈
      matched_content "abcdefghij klmnopqrst uvwxyz 123456".toList
        "abcdefghij klmnopqrst uvwxyz 123456".toList ∧
    30 < "abcdefghij klmnopqrst uvwxyz 123456".toList.length := by
  have hm : "abcdefghij klmnopqrst uvwxyz 123456".toList ∈
      matched_content "abcdefghij klmnopqrst uvwxyz 123456".toList
        "abcdefghij klmnopqrst uvwxyz 123456".toList := by decide
  exact ⟨hm, (claim_C5_filter _ _).2.1 _ hm⟩

set_option maxRecDepth 400000 in
/-- Claim C8: the matched spans (blocks that survive the length filter) are
returned in strictly ascending order of their start offset in `text_a`;
concretely, a two-span pair comes back with offsets 0 and 49 in order. -/
theorem claim_C8_ordered (a b : List Char) :
    (((get_matching_blocks a b).filter (fun m => 30 < m.size)).Pairwise
      (fun x y => x.a < y.a) ∧
    matched_content a b =
      ((get_matching_blocks a b).filter (fun m => 30 < m.size)).map
        (fun bl => (a.drop bl.a).take bl.size)) ∧
    (get_matching_blocks
        "common part one that is quite long indeed yes ZZZ common part two that is also quite long indeed".toList
        "common part one that is quite long indeed yes QQQ common part two that is also quite long indeed".toList).filter
        (fun m => 30 < m.size) =
      [MatchTriple.mk 0 0 46, MatchTriple.mk 49 49 47] :=
  ⟨⟨(get_matching_blocks_bounds a b).2, rfl⟩, by decide⟩
